import Mathlib

/-!
Verification of the read-sampling and error-injection engine of the
Lab_Buddy sequencing-read simulator (Go package seq_sim).

The Go source is embedded shallowly:
- byte sequences are lists of naturals (ASCII codes);
- float64 values are embedded as exact fractions (structure Frac below):
  an integer numerator over a natural denominator, compared by cross
  multiplication and never normalised, so that every arithmetic step is
  kernel-reducible;
- the global math/rand stream is an explicit state (structure Rand): one
  stream of float64 draws and one stream of Intn draws, each a function
  from a position counter;
- unbounded loops (the rejection loop of randBase and randReadLen, the
  coverage loop of simulateRegion, the index-skipping loop of
  injectSequencingErrors) take an explicit fuel argument and return
  none when the fuel runs out, which also covers the panics of
  rand.Intn on a nonpositive bound;
- fmt.Sprintf mutation-log lines are embedded as a structured event type
  (MutEvent), and error values as a structured error type (SimErr).
-/

namespace SeqSim

/-- Exact-fraction embedding of a Go float64 value: numerator over a
natural denominator. Values are never normalised; the comparison
operations multiply across, which agrees with the rational order whenever
denominators are positive (every fraction built by the model keeps a
positive denominator). -/
structure Frac where
  num : Int
  den : Nat
deriving DecidableEq

/-- The float64 value of an integer. -/
def Frac.ofInt (n : Int) : Frac := ⟨n, 1⟩

/-- The float64 value of a natural number. -/
def Frac.ofNat (n : Nat) : Frac := ⟨(n : Int), 1⟩

/-- Float64 multiplication. -/
def Frac.mul (a b : Frac) : Frac := ⟨a.num * b.num, a.den * b.den⟩

/-- Float64 addition. -/
def Frac.add (a b : Frac) : Frac := ⟨a.num * b.den + b.num * a.den, a.den * b.den⟩

/-- Float64 subtraction. -/
def Frac.sub (a b : Frac) : Frac := ⟨a.num * b.den - b.num * a.den, a.den * b.den⟩

/-- Float64 division. -/
def Frac.div (a b : Frac) : Frac :=
  if 0 ≤ b.num then ⟨a.num * b.den, a.den * b.num.toNat⟩
  else ⟨-(a.num * b.den), a.den * b.num.natAbs⟩

/-- Strict float64 comparison a < b. -/
def Frac.blt (a b : Frac) : Bool := decide (a.num * b.den < b.num * a.den)

/-- Float64 comparison a ≤ b. -/
def Frac.ble (a b : Frac) : Bool := decide (a.num * b.den ≤ b.num * a.den)

/-- Go conversion int(x) of a float64 to an int: truncation toward zero.
For a fraction with positive denominator this is Int.tdiv of the
numerator by the denominator. -/
def Frac.trunc (a : Frac) : Int := a.num.tdiv a.den

/-- Explicit state of the global math/rand stream: a stream of float64
draws (rand.Float64, values in the unit interval) and a stream of raw
integer draws backing rand.Intn, each with a running position. -/
structure Rand where
  floats : Nat → Frac
  ints : Nat → Nat
  fpos : Nat
  ipos : Nat

/-- rand.Float64: the next float64 draw and the advanced stream. -/
def Rand.nextFloat (r : Rand) : Frac × Rand :=
  (r.floats r.fpos, { r with fpos := r.fpos + 1 })

/-- rand.Intn n: a uniform draw in [0, n). Go panics for n ≤ 0, embedded
as none. -/
def Rand.intn (r : Rand) (n : Nat) : Option (Nat × Rand) :=
  if n = 0 then none
  else some (r.ints r.ipos % n, { r with ipos := r.ipos + 1 })

/-- The candidate bases of randBase: bytes A, C, G, T. -/
def basesACGT : List Nat := [65, 67, 71, 84]

/-- randBase(exclude): rejection-samples a base from A, C, G, T until it
differs from the excluded byte. The Go loop is unbounded; fuel bounds
the embedding. -/
def randBase (exclude : Nat) (rng : Rand) : Nat → Option (Nat × Rand)
  | 0 => none
  | fuel + 1 =>
    match rng.intn 4 with
    | none => none
    | some (d, rng') =>
      let b := basesACGT.getD d 65
      if b ≠ exclude then some (b, rng') else randBase exclude rng' fuel

/-- complement(b): base pairing used by reverseComplementBytes. Lowercase
input maps to the uppercase partner; anything unrecognised maps to N. -/
def complement (b : Nat) : Nat :=
  if b = 65 ∨ b = 97 then 84
  else if b = 84 ∨ b = 116 then 65
  else if b = 67 ∨ b = 99 then 71
  else if b = 71 ∨ b = 103 then 67
  else if b = 78 ∨ b = 110 then 78
  else 78

/-- reverseComplementBytes: the complement of each base, in reverse
order. -/
def reverseComplementBytes (seq : List Nat) : List Nat :=
  (seq.map complement).reverse

/-- The geometry record of one reference sequence, parsed from the
flat-file index by an external collaborator. -/
structure IndexRecord where
  seqLen : Int
  offset : Int
  basesPerLine : Int
  bytesPerLine : Int

/-- calcByteOffset: maps a logical base position to a byte offset in the
reference archive using the line-wrap geometry. Go integer division
truncates toward zero. -/
def calcByteOffset (basePos : Int) (rec : IndexRecord) : Int :=
  let lineCount := basePos.tdiv rec.basesPerLine
  let extraBytes := lineCount * (rec.bytesPerLine - rec.basesPerLine)
  rec.offset + basePos + extraBytes

/-- extractSequence on an in-memory archive: the bytes of the half-open
byte range with line terminators (LF, CR) filtered out. A short read at
end of file returns the bytes that exist, as the Go code accepts io.EOF. -/
def extractSequence (archive : List Nat) (byteStart byteEnd : Int) : List Nat :=
  ((archive.drop byteStart.toNat).take (byteEnd - byteStart).toNat).filter
    (fun b => decide (b ≠ 10) && decide (b ≠ 13))

/-- The rejection loop of randReadLen for a nonzero standard deviation.
Each attempt consumes two float64 draws, combines them through the
Box-Muller kernel bm, scales by the standard deviation, truncates to int
and offsets by the mean; the attempt is rejected unless the result lies
in [lo, hi]. The transcendental kernel sqrt(-2 ln u1) * cos(2 pi u2) is
floating-point in the source and is kept abstract as the parameter bm;
every theorem below holds for an arbitrary kernel. -/
def randReadLenLoop (bm : Frac → Frac → Frac) (mean stddev lo hi : Int)
    (rng : Rand) : Nat → Option (Int × Rand)
  | 0 => none
  | fuel + 1 =>
    let p1 := rng.nextFloat
    let p2 := p1.2.nextFloat
    let n := bm p1.1 p2.1
    let len := (Frac.mul n (Frac.ofInt stddev)).trunc + mean
    if lo ≤ len ∧ len ≤ hi then some (len, p2.2)
    else randReadLenLoop bm mean stddev lo hi p2.2 fuel

/-- randReadLen: returns the mean immediately when the standard deviation
is zero, and otherwise rejection-samples a truncated normal deviate. -/
def randReadLen (bm : Frac → Frac → Frac) (mean stddev lo hi : Int)
    (rng : Rand) (fuel : Nat) : Option (Int × Rand) :=
  if stddev = 0 then some (mean, rng)
  else randReadLenLoop bm mean stddev lo hi rng fuel

/-- ASCII lowercase conversion of a byte string, the embedding of
strings.ToLower on the profile names. -/
def toLowerBytes (s : List Nat) : List Nat :=
  s.map (fun b => if 65 ≤ b ∧ b ≤ 90 then b + 32 else b)

/-- The byte string "short". -/
def shortProfile : List Nat := [115, 104, 111, 114, 116]

/-- The byte string "long". -/
def longProfile : List Nat := [108, 111, 110, 103]

/-- The divisor of the tail-decay branch of generateShortReadQual:
float64(readLen) - 50.0. -/
def shortTailDivisor (len : Nat) : Frac :=
  Frac.sub (Frac.ofNat len) (Frac.ofInt 50)

/-- The quality byte of a non-error position in generateShortReadQual:
a linear ramp from Q30 to Q40 over the first 20 positions, a plateau at
Q40 up to position 50, then a linear decay toward Q30, floored at Q30. -/
def shortQualByte (i len : Nat) : Nat :=
  if i < 20 then
    let score := Frac.add (Frac.ofInt 30)
      (Frac.div (Frac.mul (Frac.ofInt 10) (Frac.ofNat i)) (Frac.ofInt 20))
    (33 + score.trunc).toNat
  else if i < 50 then 33 + 40
  else
    let score := Frac.sub (Frac.ofInt 40)
      (Frac.mul (Frac.div (Frac.sub (Frac.ofNat i) (Frac.ofInt 50)) (shortTailDivisor len))
        (Frac.ofInt 10))
    let score := if Frac.blt score (Frac.ofInt 30) then Frac.ofInt 30 else score
    (33 + score.trunc).toNat

/-- The per-position loop of generateShortReadQual, from position i with
k positions remaining: error-flagged positions get 33 + 10 + Intn 6,
others get the deterministic ramp byte. Reading past the end of the
error mask is the Go index panic, embedded as none. -/
def genShortAux (len : Nat) (mask : List Bool) :
    Nat → Nat → Rand → Option (List Nat × Rand)
  | _, 0, rng => some ([], rng)
  | i, k + 1, rng =>
    match mask.get? i with
    | none => none
    | some true =>
      match rng.intn 6 with
      | none => none
      | some (d, rng') =>
        (genShortAux len mask (i + 1) k rng').map (fun p => ((33 + 10 + d) :: p.1, p.2))
    | some false =>
      (genShortAux len mask (i + 1) k rng).map (fun p => (shortQualByte i len :: p.1, p.2))

/-- generateShortReadQual: one quality byte per input base. -/
def generateShortReadQual (seq : List Nat) (mask : List Bool) (rng : Rand) :
    Option (List Nat × Rand) :=
  genShortAux seq.length mask 0 seq.length rng

/-- The per-position loop of generateLongReadQual: error-flagged
positions get 33 + 7 + Intn 4; others get a baseline 10 + Intn 10 with a
2 percent chance of an extra downward dip of Intn 6, floored at Q5. -/
def genLongAux (mask : List Bool) :
    Nat → Nat → Rand → Option (List Nat × Rand)
  | _, 0, rng => some ([], rng)
  | i, k + 1, rng =>
    match mask.get? i with
    | none => none
    | some true =>
      match rng.intn 4 with
      | none => none
      | some (d, rng') =>
        (genLongAux mask (i + 1) k rng').map (fun p => ((33 + 7 + d) :: p.1, p.2))
    | some false =>
      match rng.intn 10 with
      | none => none
      | some (d, rng') =>
        let baseQ : Int := 10 + (d : Int)
        let fu := rng'.nextFloat
        if Frac.blt fu.1 ⟨2, 100⟩ then
          match fu.2.intn 6 with
          | none => none
          | some (d2, rng'') =>
            let bq := baseQ - (d2 : Int)
            let bq := if bq < 5 then (5 : Int) else bq
            (genLongAux mask (i + 1) k rng'').map (fun p => ((33 + bq).toNat :: p.1, p.2))
        else
          let bq := if baseQ < 5 then (5 : Int) else baseQ
          (genLongAux mask (i + 1) k fu.2).map (fun p => ((33 + bq).toNat :: p.1, p.2))

/-- generateLongReadQual: one quality byte per input base. -/
def generateLongReadQual (seq : List Nat) (mask : List Bool) (rng : Rand) :
    Option (List Nat × Rand) :=
  genLongAux mask 0 seq.length rng

/-- Whether a byte is G, C, g or c, for the local GC-content window. -/
def isGC (b : Nat) : Bool :=
  decide (b = 71) || decide (b = 67) || decide (b = 103) || decide (b = 99)

/-- The GC fraction of the window of 7 bases on each side of position i
(clipped to the sequence), as computed per position by
injectSequencingErrors. -/
def gcWindowFrac (seq : List Nat) (i : Nat) : Frac :=
  let start := i - 7
  let stop := min seq.length (i + 8)
  let gcCount := (((seq.drop start).take (stop - start)).filter isGC).length
  ⟨(gcCount : Int), stop - start⟩

/-- A structured embedding of one fmt.Sprintf mutation-log line. -/
inductive MutEvent where
  | ambig (orig pos : Nat)
  | sub (orig mutated pos : Nat)
  | del (pos : Nat) (span : List Nat)
  | ins (pos : Nat) (inserted : List Nat)
deriving DecidableEq

/-- The error-model parameters of injectSequencingErrors. -/
structure InjCfg where
  subRate : Frac
  indelRate : Frac
  ambigRate : Frac
  clusterBias : Frac
  gcBoost : Frac
  maxIndelLen : Nat
  homoMult : Frac

/-- The loop state of injectSequencingErrors: accumulated output bases,
error mask and mutation log, the input cursor i, the previous base and
running homopolymer length, the clustering flag, and the random stream. -/
structure InjSt where
  res : List Nat
  mask : List Bool
  log : List MutEvent
  i : Nat
  prev : Nat
  homoLen : Nat
  lastError : Bool
  rng : Rand

/-- Draws n independent random bases with randBase(0), the insertion
helper of injectSequencingErrors. -/
def drawInserted (rng : Rand) : Nat → Option (List Nat × Rand)
  | 0 => some ([], rng)
  | n + 1 =>
    match randBase 0 rng 1 with
    | none => none
    | some (b, rng') =>
      (drawInserted rng' n).map (fun p => (b :: p.1, p.2))

/-- The no-mutation tail of one loop iteration: copy the input base with
a false mask entry and clear the clustering flag. The insertion branch
of the source falls through to this write because it has no continue. -/
def injNormal (st : InjSt) (b homoLen : Nat) (rng : Rand) : InjSt :=
  { res := st.res ++ [b], mask := st.mask ++ [false], log := st.log,
    i := st.i + 1, prev := b, homoLen := homoLen, lastError := false, rng := rng }

/-- The indel block of one loop iteration: when the locally boosted
indel rate is positive, one uniform draw selects deletion (below half
the rate), insertion (below the rate) or no mutation. A deletion skips
min(maxIndelLen, remaining) input bases and emits nothing; an insertion
emits 1 + Intn(maxIndelLen) random bases flagged as errors and then
falls through to the normal-base write. -/
def injIndelStage (cfg : InjCfg) (seq : List Nat) (st : InjSt)
    (b homoLen : Nat) (localIndel : Frac) (rng : Rand) : Option InjSt :=
  if Frac.blt (Frac.ofInt 0) localIndel then
    let fr := rng.nextFloat
    if Frac.blt fr.1 (Frac.div localIndel (Frac.ofInt 2)) then
      let delLen := min cfg.maxIndelLen (seq.length - st.i)
      some { res := st.res, mask := st.mask,
             log := st.log ++ [MutEvent.del st.i ((seq.drop st.i).take delLen)],
             i := st.i + delLen, prev := b, homoLen := homoLen, lastError := true,
             rng := fr.2 }
    else if Frac.blt fr.1 localIndel then
      match fr.2.intn cfg.maxIndelLen with
      | none => none
      | some (d, rng') =>
        let insLen := 1 + d
        match drawInserted rng' insLen with
        | none => none
        | some (inserted, rng'') =>
          some { res := st.res ++ inserted ++ [b],
                 mask := st.mask ++ List.replicate insLen true ++ [false],
                 log := st.log ++ [MutEvent.ins st.i inserted],
                 i := st.i + 1, prev := b, homoLen := homoLen, lastError := false,
                 rng := rng'' }
    else some (injNormal st b homoLen fr.2)
  else some (injNormal st b homoLen rng)

/-- The substitution block of one loop iteration: when the locally
boosted substitution rate is positive and a uniform draw falls under it,
emit randBase(b) flagged as an error; otherwise continue with the indel
block. -/
def injSubStage (cfg : InjCfg) (seq : List Nat) (rbFuel : Nat) (st : InjSt)
    (b homoLen : Nat) (localSub localIndel : Frac) (rng : Rand) : Option InjSt :=
  if Frac.blt (Frac.ofInt 0) localSub then
    let fu := rng.nextFloat
    if Frac.blt fu.1 localSub then
      match randBase b fu.2 rbFuel with
      | none => none
      | some (mutB, rng') =>
        some { res := st.res ++ [mutB], mask := st.mask ++ [true],
               log := st.log ++ [MutEvent.sub b mutB st.i],
               i := st.i + 1, prev := b, homoLen := homoLen, lastError := true,
               rng := rng' }
    else injIndelStage cfg seq st b homoLen localIndel fu.2
  else injIndelStage cfg seq st b homoLen localIndel rng

/-- One iteration of the injectSequencingErrors loop at position st.i.
The decision order is ambiguous-base injection, then substitution, then
indel; a rate draw happens only when the corresponding rate is positive,
as in the Go short-circuit conditions. The local substitution rate is
boosted by gcBoost above 0.6 GC fraction, the local indel rate by
homoMult on homopolymer runs of length at least 3, and both by
clusterBias after a mutated position. -/
def injectStep (cfg : InjCfg) (seq : List Nat) (rbFuel : Nat) (st : InjSt) :
    Option InjSt :=
  let b := seq.getD st.i 0
  let homoLen := if b = st.prev then st.homoLen + 1 else 1
  let gcFrac := gcWindowFrac seq st.i
  let localSub := if Frac.blt ⟨6, 10⟩ gcFrac then Frac.mul cfg.subRate cfg.gcBoost else cfg.subRate
  let localIndel := if 3 ≤ homoLen then Frac.mul cfg.indelRate cfg.homoMult else cfg.indelRate
  let localSub := if st.lastError then Frac.mul localSub cfg.clusterBias else localSub
  let localIndel := if st.lastError then Frac.mul localIndel cfg.clusterBias else localIndel
  if Frac.blt (Frac.ofInt 0) cfg.ambigRate then
    let fu := st.rng.nextFloat
    if Frac.blt fu.1 cfg.ambigRate then
      some { res := st.res ++ [78], mask := st.mask ++ [true],
             log := st.log ++ [MutEvent.ambig b st.i],
             i := st.i + 1, prev := b, homoLen := homoLen, lastError := true,
             rng := fu.2 }
    else injSubStage cfg seq rbFuel st b homoLen localSub localIndel fu.2
  else injSubStage cfg seq rbFuel st b homoLen localSub localIndel st.rng

/-- The left-to-right loop of injectSequencingErrors, bounded by fuel. -/
def injectLoop (cfg : InjCfg) (seq : List Nat) (rbFuel : Nat) :
    Nat → InjSt → Option InjSt
  | 0, st => if st.i < seq.length then none else some st
  | fuel + 1, st =>
    if st.i < seq.length then
      match injectStep cfg seq rbFuel st with
      | none => none
      | some st' => injectLoop cfg seq rbFuel fuel st'
    else some st

/-- injectSequencingErrors: the mutated sequence, the parallel error
mask, the mutation log and the advanced random stream. -/
def injectSequencingErrors (cfg : InjCfg) (seq : List Nat) (rng : Rand)
    (rbFuel injFuel : Nat) :
    Option (List Nat × List Bool × List MutEvent × Rand) :=
  (injectLoop cfg seq rbFuel injFuel
      { res := [], mask := [], log := [], i := 0, prev := 0, homoLen := 1,
        lastError := false, rng := rng }).map
    (fun st => (st.res, st.mask, st.log, st.rng))

/-- Structured embedding of the error values produced inside
simulateRegion. -/
inductive SimErr where
  | headerNotFound (header : List Nat)
  | regionTooShort
  | extractFail (baseStart baseEnd : Int)
  | invalidProfile (profile : List Nat)
deriving DecidableEq

/-- One emitted read record: mutated sequence, quality string, and
whether the reverse strand was chosen. -/
structure Read where
  seq : List Nat
  qual : List Nat
  flipped : Bool
deriving DecidableEq

/-- The scalar parameters of simulateRegion. -/
structure SimParams where
  start : Int
  stop : Int
  readLenMean : Int
  readLenStdDev : Int
  readLenMin : Int
  readLenMax : Int
  coverageDepth : Int
  qualityProfile : List Nat

/-- The region length end - start of simulateRegion. -/
def regionLenP (p : SimParams) : Int := p.stop - p.start

/-- The coverage target regionLen * coverageDepth of simulateRegion. -/
def targetBases (p : SimParams) : Int := regionLenP p * p.coverageDepth

/-- Result of a run of the sampling loop: the reads written so far, and
either normal completion with the final basesSimulated counter, or the
error that aborted the loop; both carry the final random stream. -/
inductive SimOut where
  | ok (reads : List Read) (bases : Int) (rng : Rand)
  | err (reads : List Read) (e : SimErr) (rng : Rand)

/-- The reads written by a run. -/
def SimOut.reads : SimOut → List Read
  | .ok rs _ _ => rs
  | .err rs _ _ => rs

/-- The final random stream of a run. -/
def SimOut.rngOut : SimOut → Rand
  | .ok _ _ r => r
  | .err _ _ r => r

/-- Whether a run aborted with an error. -/
def isErrOut : Option SimOut → Bool
  | some (.err _ _ _) => true
  | _ => false

/-- The quality-profile dispatch of simulateRegion: strings.ToLower of
the profile name selects the short or long model; any other name is an
invalid-profile error. The inner Option is the possible index panic of
the quality generators. -/
def qualityDispatch (profile : List Nat) (mutSeq : List Nat) (mask : List Bool)
    (rng : Rand) : Except SimErr (Option (List Nat × Rand)) :=
  if toLowerBytes profile = shortProfile then .ok (generateShortReadQual mutSeq mask rng)
  else if toLowerBytes profile = longProfile then .ok (generateLongReadQual mutSeq mask rng)
  else .error (.invalidProfile profile)

/-- The coverage-driven sampling loop of simulateRegion. Per iteration:
draw a read length; redraw when the region is shorter than the draw;
pick a uniform start, resolve byte offsets, extract through the oracle
ext (an extraction failure aborts the loop with an error, as the source
returns); flip strand with probability one half; inject errors;
synthesise qualities; emit the read and add the original drawn length to
basesSimulated. The loop ends when basesSimulated reaches the target. -/
def simLoop (bm : Frac → Frac → Frac) (ext : Int → Int → Except (List Nat) (List Nat))
    (p : SimParams) (cfg : InjCfg) (rec : IndexRecord)
    (rlFuel rbFuel injFuel : Nat) (rng : Rand) (basesSimulated : Int) :
    Nat → Option SimOut
  | 0 => none
  | fuel + 1 =>
    if basesSimulated < targetBases p then
      match randReadLen bm p.readLenMean p.readLenStdDev p.readLenMin p.readLenMax rng rlFuel with
      | none => none
      | some (readLen, rng1) =>
        if regionLenP p < readLen then
          simLoop bm ext p cfg rec rlFuel rbFuel injFuel rng1 basesSimulated fuel
        else
          match rng1.intn (regionLenP p - readLen + 1).toNat with
          | none => none
          | some (off, rng2) =>
            let baseStart : Int := (off : Int) + p.start
            let baseEnd : Int := baseStart + readLen
            let byteStart := calcByteOffset baseStart rec
            let byteEnd := calcByteOffset baseEnd rec
            match ext byteStart byteEnd with
            | .error _ => some (.err [] (.extractFail baseStart baseEnd) rng2)
            | .ok raw =>
              let fu := rng2.nextFloat
              let rawSeq := if Frac.blt fu.1 ⟨1, 2⟩ then reverseComplementBytes raw else raw
              let flipped := Frac.blt fu.1 ⟨1, 2⟩
              match injectSequencingErrors cfg rawSeq fu.2 rbFuel injFuel with
              | none => none
              | some (mutB, mask, _log, rng4) =>
                match qualityDispatch p.qualityProfile mutB mask rng4 with
                | .error e => some (.err [] e rng4)
                | .ok none => none
                | .ok (some (qual, rng5)) =>
                  match simLoop bm ext p cfg rec rlFuel rbFuel injFuel rng5
                      (basesSimulated + readLen) fuel with
                  | none => none
                  | some (.ok reads b r) => some (.ok (⟨mutB, qual, flipped⟩ :: reads) b r)
                  | some (.err reads e r) => some (.err (⟨mutB, qual, flipped⟩ :: reads) e r)
    else some (.ok [] basesSimulated rng)

/-- simulateRegion without the file open: index lookup, minimum-length
check, then the sampling loop from a zero basesSimulated counter. -/
def simulateRegionM (bm : Frac → Frac → Frac)
    (ext : Int → Int → Except (List Nat) (List Nat))
    (index : List Nat → Option IndexRecord) (header : List Nat)
    (p : SimParams) (cfg : InjCfg) (rlFuel rbFuel injFuel fuel : Nat)
    (rng : Rand) : Option SimOut :=
  match index header with
  | none => some (.err [] (.headerNotFound header) rng)
  | some rec =>
    if regionLenP p < p.readLenMin then some (.err [] .regionTooShort rng)
    else simLoop bm ext p cfg rec rlFuel rbFuel injFuel rng 0 fuel

/-- The random stream after one region: the final stream of the run, or
the incoming stream when the run did not finish in fuel. -/
def rngAfter : Option SimOut → Rand → Rand
  | some out, _ => out.rngOut
  | none, r => r

/-- The region loop of SeqSimRun: each region is simulated in turn; a
failing region is recorded and processing continues with the remaining
regions. -/
def runRegions (bm : Frac → Frac → Frac)
    (ext : Int → Int → Except (List Nat) (List Nat))
    (index : List Nat → Option IndexRecord) (cfg : InjCfg)
    (rlFuel rbFuel injFuel fuel : Nat) (rng : Rand) :
    List (List Nat × SimParams) → List (Option SimOut)
  | [] => []
  | (header, p) :: rest =>
    let res := simulateRegionM bm ext index header p cfg rlFuel rbFuel injFuel fuel rng
    res :: runRegions bm ext index cfg rlFuel rbFuel injFuel fuel (rngAfter res rng) rest

/-- Ceiling division of x by r on naturals. -/
def natCeilDiv (r x : Nat) : Nat := (x + r - 1) / r

/-- A trivial Box-Muller kernel used to instantiate witnesses. -/
def bmW : Frac → Frac → Frac := fun _ _ => ⟨0, 1⟩

/-- A concrete random stream: float draws of one half, integer draws
equal to their position. -/
def rngW : Rand := { floats := fun _ => ⟨1, 2⟩, ints := fun n => n, fpos := 0, ipos := 0 }

/-- rngW after one integer draw. -/
def rngW1 : Rand := { floats := fun _ => ⟨1, 2⟩, ints := fun n => n, fpos := 0, ipos := 1 }

/-- A concrete random stream whose integer draws are all 0. -/
def rngCA : Rand := { floats := fun _ => ⟨1, 2⟩, ints := fun _ => 0, fpos := 0, ipos := 0 }

/-- A concrete random stream whose integer draws are all 1. -/
def rngCB : Rand := { floats := fun _ => ⟨1, 2⟩, ints := fun _ => 1, fpos := 0, ipos := 0 }

/-- rngCB after one integer draw. -/
def rngCB1 : Rand := { floats := fun _ => ⟨1, 2⟩, ints := fun _ => 1, fpos := 0, ipos := 1 }

/-- A concrete random stream whose float draws are 0.7, driving the
indel branch of the error model into its insertion half. -/
def rngIns : Rand := { floats := fun _ => ⟨7, 10⟩, ints := fun _ => 0, fpos := 0, ipos := 0 }

/-- An error-model configuration with every rate zero. -/
def cfg0W : InjCfg :=
  { subRate := ⟨0, 1⟩, indelRate := ⟨0, 1⟩, ambigRate := ⟨0, 1⟩,
    clusterBias := ⟨1, 1⟩, gcBoost := ⟨1, 1⟩, maxIndelLen := 1, homoMult := ⟨1, 1⟩ }

/-- An error-model configuration whose indel rate is 1 and all other
rates zero. -/
def cfgInsW : InjCfg :=
  { subRate := ⟨0, 1⟩, indelRate := ⟨1, 1⟩, ambigRate := ⟨0, 1⟩,
    clusterBias := ⟨1, 1⟩, gcBoost := ⟨1, 1⟩, maxIndelLen := 1, homoMult := ⟨1, 1⟩ }

/-- The initial loop state of injectSequencingErrors over rngIns. -/
def st0W : InjSt :=
  { res := [], mask := [], log := [], i := 0, prev := 0, homoLen := 1,
    lastError := false, rng := rngIns }

/-- Concrete sampling parameters: region of length 4, fixed read length
2, depth 1, short-read quality profile. -/
def pC2W : SimParams :=
  { start := 0, stop := 4, readLenMean := 2, readLenStdDev := 0,
    readLenMin := 1, readLenMax := 10, coverageDepth := 1, qualityProfile := shortProfile }

/-- A concrete index record: 80 bases per 81-byte line at offset 0. -/
def recW : IndexRecord := { seqLen := 100, offset := 0, basesPerLine := 80, bytesPerLine := 81 }

/-- An extraction oracle that always succeeds with the bases AA. -/
def extOKW : Int → Int → Except (List Nat) (List Nat) := fun _ _ => .ok [65, 65]

/-- An extraction oracle that always fails. -/
def extBadW : Int → Int → Except (List Nat) (List Nat) := fun _ _ => .error [120]

/-- The bases A, C, G, T, N in uppercase, the alphabet on which the
complement rule is involutive. -/
def canonicalBases : List Nat := [65, 67, 71, 84, 78]

/-- rngW after two float draws and two integer draws. -/
def rngW22 : Rand := { floats := fun _ => ⟨1, 2⟩, ints := fun n => n, fpos := 2, ipos := 2 }

/-- The read emitted by the concrete zero-rate run used in witnesses:
the bases AA with the deterministic short-profile qualities. -/
def readW : Read := { seq := [65, 65], qual := [63, 63], flipped := false }

/-- The bases returned by the always-succeeding extraction oracle. -/
def extFW : Int → Int → List Nat := fun _ _ => [65, 65]

/-- The message returned by the always-failing extraction oracle. -/
def errFW : Int → Int → List Nat := fun _ _ => [120]

/-- An index lookup that resolves every header to the concrete record. -/
def indexW : List Nat → Option IndexRecord := fun _ => some recW

end SeqSim

namespace SeqSim

theorem blt_zero_of_num {q : Frac} (h : q.num = 0) :
    Frac.blt (Frac.ofInt 0) q = false := by
  simp [Frac.blt, Frac.ofInt, h]

theorem mul_num {a b : Frac} : (Frac.mul a b).num = a.num * b.num := rfl

theorem nextFloat_floats (r : Rand) : (r.nextFloat.2).floats = r.floats := rfl

theorem nextFloat_ints (r : Rand) : (r.nextFloat.2).ints = r.ints := rfl

theorem intn_pres {r : Rand} {n : Nat} {d : Nat} {r' : Rand}
    (h : r.intn n = some (d, r')) : r'.floats = r.floats ∧ r'.ints = r.ints := by
  unfold Rand.intn at h
  split at h
  · exact absurd h (by simp)
  · injection h with h1
    injection h1 with _ h2
    subst h2
    exact ⟨rfl, rfl⟩

theorem getD_basesACGT_mem : ∀ d, d < 4 → basesACGT.getD d 65 ∈ basesACGT := by decide

theorem getD_basesACGT_ne_zero : ∀ d : Nat, basesACGT.getD d 65 ≠ 0 := by
  intro d
  rcases d with _ | _ | _ | _ | n <;> simp [basesACGT, List.getD]

theorem randBase_succ_eq (x : Nat) (r : Rand) (fuel : Nat) :
    randBase x r (fuel + 1) =
      (if basesACGT.getD (r.ints r.ipos % 4) 65 ≠ x
       then some (basesACGT.getD (r.ints r.ipos % 4) 65, { r with ipos := r.ipos + 1 })
       else randBase x { r with ipos := r.ipos + 1 } fuel) := rfl

theorem randBase_one_eq (x : Nat) (r : Rand) :
    randBase x r 1 =
      (if basesACGT.getD (r.ints r.ipos % 4) 65 ≠ x
       then some (basesACGT.getD (r.ints r.ipos % 4) 65, { r with ipos := r.ipos + 1 })
       else none) := rfl

theorem randBase_pres {x : Nat} {r : Rand} {fuel : Nat} {b : Nat} {r' : Rand}
    (h : randBase x r fuel = some (b, r')) :
    r'.floats = r.floats ∧ r'.ints = r.ints := by
  induction fuel generalizing r with
  | zero => exact absurd h (by simp [randBase])
  | succ fuel ih =>
    rw [randBase_succ_eq] at h
    split at h
    · injection h with h1
      injection h1 with _ h2
      subst h2
      exact ⟨rfl, rfl⟩
    · have hh := ih h
      exact hh

theorem randBase_zero_exclude (r : Rand) :
    randBase 0 r 1 =
      some (basesACGT.getD (r.ints r.ipos % 4) 65, { r with ipos := r.ipos + 1 }) := by
  rw [randBase_one_eq, if_pos (getD_basesACGT_ne_zero _)]

theorem drawInserted_pres {r : Rand} {n : Nat} {l : List Nat} {r' : Rand}
    (h : drawInserted r n = some (l, r')) :
    r'.floats = r.floats ∧ r'.ints = r.ints ∧ l.length = n := by
  induction n generalizing r l with
  | zero =>
    unfold drawInserted at h
    injection h with h1
    injection h1 with h2 h3
    subst h2; subst h3
    exact ⟨rfl, rfl, rfl⟩
  | succ n ih =>
    unfold drawInserted at h
    simp only [randBase_zero_exclude] at h
    rcases hdr : drawInserted { r with ipos := r.ipos + 1 } n with _ | ⟨l2, r3⟩
    · rw [hdr] at h; exact absurd h (by simp)
    · rw [hdr, Option.map_some'] at h
      injection h with h1
      injection h1 with h2 h3
      subst h3
      obtain ⟨hf, hi, hl⟩ := ih hdr
      subst h2
      exact ⟨hf, hi, by simp [hl]⟩

theorem drawInserted_isSome (r : Rand) (n : Nat) : (drawInserted r n).isSome := by
  induction n generalizing r with
  | zero => simp [drawInserted]
  | succ n ih =>
    unfold drawInserted
    simp only [randBase_zero_exclude]
    have hin := ih { r with ipos := r.ipos + 1 }
    rcases hdr : drawInserted { r with ipos := r.ipos + 1 } n with _ | ⟨l2, r3⟩
    · rw [hdr] at hin; simp at hin
    · simp

theorem getD_basesACGT_inj : ∀ a, a < 4 → ∀ b, b < 4 → a ≠ b →
    basesACGT.getD a 65 ≠ basesACGT.getD b 65 := by decide

theorem randBase_isSome_two (r : Rand) (x : Nat)
    (hne : r.ints r.ipos % 4 ≠ r.ints (r.ipos + 1) % 4) :
    (randBase x r 2).isSome := by
  show (randBase x r (1 + 1)).isSome
  rw [randBase_succ_eq]
  by_cases h1 : basesACGT.getD (r.ints r.ipos % 4) 65 = x
  · have h2 : basesACGT.getD (r.ints (r.ipos + 1) % 4) 65 ≠ x := by
      rw [← h1]
      exact getD_basesACGT_inj _ (Nat.mod_lt _ (by omega)) _ (Nat.mod_lt _ (by omega)) hne.symm
    rw [if_neg (not_not_intro h1), randBase_one_eq]
    rw [if_pos h2]
    simp
  · rw [if_pos h1]
    simp

theorem reverseComplementBytes_length (l : List Nat) :
    (reverseComplementBytes l).length = l.length := by
  simp [reverseComplementBytes]

theorem complement_complement_canonical :
    ∀ b ∈ canonicalBases, complement (complement b) = b := by decide

/-- C7 counterexample: reverse-complementing twice does not reproduce a
lowercase input, because complement maps lowercase bases to their
uppercase partners. -/
theorem c7_counterexample :
    reverseComplementBytes (reverseComplementBytes [97]) ≠ [97] := by decide

/-- C7 (amended): over sequences of uppercase A, C, G, T, N the reverse
complement of the reverse complement is the original sequence. Bytes
outside this alphabet (lowercase bases, invalid characters) are not
restored: they collapse to uppercase partners or to N. -/
theorem c7_revcomp_involution (seq : List Nat)
    (h : ∀ b ∈ seq, b ∈ canonicalBases) :
    reverseComplementBytes (reverseComplementBytes seq) = seq := by
  unfold reverseComplementBytes
  rw [List.map_reverse, List.reverse_reverse, List.map_map]
  induction seq with
  | nil => rfl
  | cons a l ih =>
    rw [List.map_cons]
    rw [ih (fun b hb => h b (List.mem_cons_of_mem a hb))]
    simp only [Function.comp_apply]
    rw [complement_complement_canonical a (h a (List.mem_cons_self a l))]

theorem c7_witness :
    (∀ b ∈ ([65, 67, 71, 84, 78] : List Nat), b ∈ canonicalBases) ∧
    reverseComplementBytes (reverseComplementBytes [65, 67, 71, 84, 78]) =
      [65, 67, 71, 84, 78] :=
  ⟨by decide, c7_revcomp_involution [65, 67, 71, 84, 78] (by decide)⟩

/-- C8: the length sampler returns the mean immediately (with the
stream untouched) when the standard deviation is zero; with a nonzero
standard deviation every value it returns lies in the closed interval
from lo to hi; and each attempt of the rejection loop consumes exactly
two uniform draws, combined by the Box-Muller kernel, scaled by the
standard deviation and offset by the mean, redrawing on rejection. The
statement quantifies over every Box-Muller kernel bm, so it holds in
particular for the floating-point kernel of the source. -/
theorem c8_randReadLen_spec :
    (∀ (bm : Frac → Frac → Frac) (mean stddev lo hi : Int) (rng : Rand) (fuel : Nat),
      stddev = 0 → randReadLen bm mean stddev lo hi rng fuel = some (mean, rng)) ∧
    (∀ (bm : Frac → Frac → Frac) (mean stddev lo hi : Int) (rng : Rand) (fuel : Nat)
      (v : Int) (rng' : Rand), stddev ≠ 0 →
      randReadLen bm mean stddev lo hi rng fuel = some (v, rng') → lo ≤ v ∧ v ≤ hi) ∧
    (∀ (bm : Frac → Frac → Frac) (mean stddev lo hi : Int) (rng : Rand) (fuel : Nat),
      stddev ≠ 0 →
      randReadLen bm mean stddev lo hi rng (fuel + 1) =
        (let p1 := rng.nextFloat
         let p2 := p1.2.nextFloat
         let len := (Frac.mul (bm p1.1 p2.1) (Frac.ofInt stddev)).trunc + mean
         if lo ≤ len ∧ len ≤ hi then some (len, p2.2)
         else randReadLen bm mean stddev lo hi p2.2 fuel)) := by
  refine ⟨?_, ?_, ?_⟩
  · intro bm mean stddev lo hi rng fuel h
    simp [randReadLen, h]
  · intro bm mean stddev lo hi rng fuel v rng' h hsome
    rw [randReadLen, if_neg h] at hsome
    induction fuel generalizing rng with
    | zero => exact absurd hsome (by simp [randReadLenLoop])
    | succ fuel ih =>
      rw [randReadLenLoop] at hsome
      split at hsome
      · next hacc =>
        injection hsome with h1
        injection h1 with h2
        subst h2
        exact hacc
      · exact ih _ hsome
  · intro bm mean stddev lo hi rng fuel h
    rw [randReadLen, if_neg h, randReadLenLoop]
    simp only [randReadLen, if_neg h]

theorem c8_witness :
    (0 : Int) = 0 ∧ randReadLen bmW 150 0 10 300 rngW 0 = some (150, rngW) :=
  ⟨rfl, c8_randReadLen_spec.1 bmW 150 0 10 300 rngW 0 rfl⟩

/-- C10: the tail-decay branch of generateShortReadQual is reached only
for positions at least 50 inside the read, which forces the read length
to be at least 51, so the divisor readLen - 50 is at least 1 and in
particular nonzero. -/
theorem c10_short_tail_divisor (i len : Nat) (h50 : 50 ≤ i) (hlt : i < len) :
    51 ≤ len ∧ Frac.ble (Frac.ofInt 1) (shortTailDivisor len) = true ∧
      (shortTailDivisor len).num ≠ 0 := by
  have hlen : 51 ≤ len := by omega
  refine ⟨hlen, ?_, ?_⟩
  · simp only [Frac.ble, shortTailDivisor, Frac.sub, Frac.ofInt, Frac.ofNat]
    simp only [decide_eq_true_eq]
    push_cast
    omega
  · simp only [shortTailDivisor, Frac.sub, Frac.ofInt, Frac.ofNat]
    push_cast
    omega

theorem c10_witness :
    (50 ≤ 50 ∧ 50 < 51) ∧
    (51 ≤ 51 ∧ Frac.ble (Frac.ofInt 1) (shortTailDivisor 51) = true ∧
      (shortTailDivisor 51).num ≠ 0) :=
  ⟨⟨by omega, by omega⟩, c10_short_tail_divisor 50 51 (by omega) (by omega)⟩

theorem injIndelStage_spec {cfg : InjCfg} {seq : List Nat} {st : InjSt}
    {b homoLen : Nat} {li : Frac} {rng : Rand} {st' : InjSt}
    (h : injIndelStage cfg seq st b homoLen li rng = some st') :
    (st.res.length = st.mask.length → st'.res.length = st'.mask.length) ∧
    st'.rng.floats = rng.floats ∧ st'.rng.ints = rng.ints ∧
    (st'.i = st.i + 1 ∨ st'.i = st.i + min cfg.maxIndelLen (seq.length - st.i)) := by
  unfold injIndelStage at h
  dsimp only at h
  split at h
  · split at h
    · injection h with h1
      subst h1
      exact ⟨fun hl => hl, rfl, rfl, Or.inr rfl⟩
    · split at h
      · split at h
        · exact Option.noConfusion h
        · next d rng' heq =>
          split at h
          · exact Option.noConfusion h
          · next inserted rng'' heq2 =>
            injection h with h1
            subst h1
            obtain ⟨hf, hi, hl2⟩ := drawInserted_pres heq2
            obtain ⟨hf2, hi2⟩ := intn_pres heq
            refine ⟨fun hl => ?_, hf.trans hf2, hi.trans hi2, Or.inl rfl⟩
            simp [List.length_append, hl2, hl]
      · injection h with h1
        subst h1
        refine ⟨fun hl => ?_, rfl, rfl, Or.inl rfl⟩
        simp [injNormal, hl]
  · injection h with h1
    subst h1
    refine ⟨fun hl => ?_, rfl, rfl, Or.inl rfl⟩
    simp [injNormal, hl]

theorem injSubStage_spec {cfg : InjCfg} {seq : List Nat} {rbFuel : Nat} {st : InjSt}
    {b homoLen : Nat} {ls li : Frac} {rng : Rand} {st' : InjSt}
    (h : injSubStage cfg seq rbFuel st b homoLen ls li rng = some st') :
    (st.res.length = st.mask.length → st'.res.length = st'.mask.length) ∧
    st'.rng.floats = rng.floats ∧ st'.rng.ints = rng.ints ∧
    (st'.i = st.i + 1 ∨ st'.i = st.i + min cfg.maxIndelLen (seq.length - st.i)) := by
  unfold injSubStage at h
  dsimp only at h
  split at h
  · split at h
    · split at h
      · exact Option.noConfusion h
      · next mutB rng' heq =>
        injection h with h1
        subst h1
        obtain ⟨hf, hi⟩ := randBase_pres heq
        refine ⟨fun hl => ?_, hf, hi, Or.inl rfl⟩
        simp [hl]
    · have hh := injIndelStage_spec h
      exact hh
  · have hh := injIndelStage_spec h
    exact hh

theorem injectStep_spec {cfg : InjCfg} {seq : List Nat} {rbFuel : Nat}
    {st st' : InjSt} (h : injectStep cfg seq rbFuel st = some st') :
    (st.res.length = st.mask.length → st'.res.length = st'.mask.length) ∧
    st'.rng.floats = st.rng.floats ∧ st'.rng.ints = st.rng.ints ∧
    (st'.i = st.i + 1 ∨ st'.i = st.i + min cfg.maxIndelLen (seq.length - st.i)) := by
  unfold injectStep at h
  dsimp only at h
  split at h
  · split at h
    · injection h with h1
      subst h1
      refine ⟨fun hl => ?_, rfl, rfl, Or.inl rfl⟩
      simp [hl]
    · have hh := injSubStage_spec h
      exact hh
  · have hh := injSubStage_spec h
    exact hh

theorem injectStep_i_advance {cfg : InjCfg} {seq : List Nat} {rbFuel : Nat}
    {st st' : InjSt} (h : injectStep cfg seq rbFuel st = some st')
    (hmil : 1 ≤ cfg.maxIndelLen) (hi : st.i < seq.length) :
    st.i < st'.i ∧ st'.i ≤ seq.length := by
  rcases (injectStep_spec h).2.2.2 with h1 | h1
  · rw [h1]; omega
  · rw [h1]
    have h2 : 1 ≤ min cfg.maxIndelLen (seq.length - st.i) :=
      Nat.le_min.mpr ⟨hmil, by omega⟩
    have h3 : min cfg.maxIndelLen (seq.length - st.i) ≤ seq.length - st.i :=
      Nat.min_le_right _ _
    omega

theorem injectLoop_spec {cfg : InjCfg} {seq : List Nat} {rbFuel fuel : Nat}
    {st st' : InjSt} (h : injectLoop cfg seq rbFuel fuel st = some st') :
    (st.res.length = st.mask.length → st'.res.length = st'.mask.length) ∧
    st'.rng.floats = st.rng.floats ∧ st'.rng.ints = st.rng.ints := by
  induction fuel generalizing st with
  | zero =>
    unfold injectLoop at h
    split at h
    · exact Option.noConfusion h
    · injection h with h1
      subst h1
      exact ⟨fun hl => hl, rfl, rfl⟩
  | succ fuel ih =>
    unfold injectLoop at h
    split at h
    · split at h
      · exact Option.noConfusion h
      · next st1 heq =>
        obtain ⟨hl1, hf1, hi1, _⟩ := injectStep_spec heq
        obtain ⟨hl2, hf2, hi2⟩ := ih h
        exact ⟨fun hl => hl2 (hl1 hl), hf2.trans hf1, hi2.trans hi1⟩
    · injection h with h1
      subst h1
      exact ⟨fun hl => hl, rfl, rfl⟩

theorem inject_spec {cfg : InjCfg} {seq : List Nat} {rng : Rand}
    {rbFuel injFuel : Nat} {res : List Nat} {m : List Bool} {lg : List MutEvent}
    {rng' : Rand}
    (h : injectSequencingErrors cfg seq rng rbFuel injFuel = some (res, m, lg, rng')) :
    res.length = m.length ∧ rng'.floats = rng.floats ∧ rng'.ints = rng.ints := by
  unfold injectSequencingErrors at h
  rcases hl : injectLoop cfg seq rbFuel injFuel
      { res := [], mask := [], log := [], i := 0, prev := 0, homoLen := 1,
        lastError := false, rng := rng } with _ | st1
  · rw [hl] at h
    exact Option.noConfusion h
  · rw [hl, Option.map_some'] at h
    injection h with h1
    obtain ⟨hlen, hf, hi⟩ := injectLoop_spec hl
    have h2 := congrArg Prod.fst h1
    have h3 := congrArg (fun p => p.2.1) h1
    have h5 := congrArg (fun p => p.2.2.2) h1
    simp at h2 h3 h5
    rw [← h2, ← h3, ← h5]
    exact ⟨hlen rfl, hf, hi⟩

theorem injIndelStage_isSome {cfg : InjCfg} {seq : List Nat} {st : InjSt}
    {b homoLen : Nat} {li : Frac} {rng : Rand} (hmil : 1 ≤ cfg.maxIndelLen) :
    (injIndelStage cfg seq st b homoLen li rng).isSome := by
  unfold injIndelStage
  dsimp only
  split
  · split
    · simp
    · split
      · have hintn : (rng.nextFloat.2).intn cfg.maxIndelLen =
            some ((rng.nextFloat.2).ints (rng.nextFloat.2).ipos % cfg.maxIndelLen,
              { rng.nextFloat.2 with ipos := (rng.nextFloat.2).ipos + 1 }) := by
          unfold Rand.intn
          rw [if_neg (by omega)]
        simp only [hintn]
        obtain ⟨p, hp⟩ := Option.isSome_iff_exists.mp
          (drawInserted_isSome { rng.nextFloat.2 with ipos := (rng.nextFloat.2).ipos + 1 }
            (1 + (rng.nextFloat.2).ints (rng.nextFloat.2).ipos % cfg.maxIndelLen))
        rcases p with ⟨inserted, rng''⟩
        simp only [hp]
        simp
      · simp
  · simp

theorem injSubStage_isSome {cfg : InjCfg} {seq : List Nat} {rbFuel : Nat}
    {st : InjSt} {b homoLen : Nat} {ls li : Frac} {rng : Rand} {I : Nat → Nat}
    (hmil : 1 ≤ cfg.maxIndelLen)
    (hrb : ∀ (x : Nat) (r' : Rand), r'.ints = I → (randBase x r' rbFuel).isSome)
    (hrng : rng.ints = I) :
    (injSubStage cfg seq rbFuel st b homoLen ls li rng).isSome := by
  unfold injSubStage
  dsimp only
  split
  · split
    · obtain ⟨p, hp⟩ := Option.isSome_iff_exists.mp (hrb b rng.nextFloat.2 hrng)
      rcases p with ⟨mutB, rng'⟩
      rw [hp]
      simp
    · exact injIndelStage_isSome hmil
  · exact injIndelStage_isSome hmil

theorem injectStep_isSome {cfg : InjCfg} {seq : List Nat} {rbFuel : Nat}
    {st : InjSt} {I : Nat → Nat} (hmil : 1 ≤ cfg.maxIndelLen)
    (hrb : ∀ (x : Nat) (r' : Rand), r'.ints = I → (randBase x r' rbFuel).isSome)
    (hrng : st.rng.ints = I) :
    (injectStep cfg seq rbFuel st).isSome := by
  unfold injectStep
  dsimp only
  split
  · split
    · simp
    · exact injSubStage_isSome hmil hrb hrng
  · exact injSubStage_isSome hmil hrb hrng

theorem injectLoop_isSome {cfg : InjCfg} {seq : List Nat} {rbFuel : Nat}
    {I : Nat → Nat} (hmil : 1 ≤ cfg.maxIndelLen)
    (hrb : ∀ (x : Nat) (r' : Rand), r'.ints = I → (randBase x r' rbFuel).isSome) :
    ∀ (fuel : Nat) (st : InjSt), st.rng.ints = I → seq.length - st.i ≤ fuel →
    (injectLoop cfg seq rbFuel fuel st).isSome := by
  intro fuel
  induction fuel with
  | zero =>
    intro st _ hfuel
    unfold injectLoop
    rw [if_neg (by omega)]
    simp
  | succ fuel ih =>
    intro st hrng hfuel
    unfold injectLoop
    by_cases hi : st.i < seq.length
    · rw [if_pos hi]
      obtain ⟨st1, heq⟩ := Option.isSome_iff_exists.mp (injectStep_isSome hmil hrb hrng)
      rw [heq]
      obtain ⟨hlt, hle⟩ := injectStep_i_advance heq hmil hi
      exact ih st1 (((injectStep_spec heq).2.2.1).trans hrng) (by omega)
    · rw [if_neg hi]
      simp

theorem inject_isSome {cfg : InjCfg} {seq : List Nat} {rng : Rand}
    {rbFuel injFuel : Nat} {I : Nat → Nat} (hmil : 1 ≤ cfg.maxIndelLen)
    (hrb : ∀ (x : Nat) (r' : Rand), r'.ints = I → (randBase x r' rbFuel).isSome)
    (hrng : rng.ints = I) (hfuel : seq.length ≤ injFuel) :
    (injectSequencingErrors cfg seq rng rbFuel injFuel).isSome := by
  unfold injectSequencingErrors
  have h6 : seq.length - (0 : Nat) ≤ injFuel := by omega
  have := injectLoop_isSome hmil hrb injFuel
    { res := [], mask := [], log := [], i := 0, prev := 0, homoLen := 1,
      lastError := false, rng := rng } hrng h6
  obtain ⟨st1, heq⟩ := Option.isSome_iff_exists.mp this
  rw [heq]
  simp

theorem genShortAux_some (len : Nat) (mask : List Bool) :
    ∀ (k i : Nat) (rng : Rand), i + k ≤ mask.length →
    ∃ q rng', genShortAux len mask i k rng = some (q, rng') ∧ q.length = k ∧
      rng'.floats = rng.floats ∧ rng'.ints = rng.ints := by
  intro k
  induction k with
  | zero => exact fun i rng _ => ⟨[], rng, rfl, rfl, rfl, rfl⟩
  | succ k ih =>
    intro i rng hik
    have hi : i < mask.length := by omega
    have hget : mask.get? i = some (mask.get ⟨i, hi⟩) := List.get?_eq_get hi
    have hintn : rng.intn 6 = some (rng.ints rng.ipos % 6, { rng with ipos := rng.ipos + 1 }) := by
      unfold Rand.intn
      rw [if_neg (by omega)]
    cases hmb : mask.get ⟨i, hi⟩ with
    | true =>
      obtain ⟨q, rng', heq, hlen, hf, hio⟩ :=
        ih (i + 1) { rng with ipos := rng.ipos + 1 } (by omega)
      refine ⟨(33 + 10 + rng.ints rng.ipos % 6) :: q, rng', ?_, by simp [hlen], hf, hio⟩
      unfold genShortAux
      rw [hget, hmb]
      simp only [hintn, heq, Option.map_some']
    | false =>
      obtain ⟨q, rng', heq, hlen, hf, hio⟩ := ih (i + 1) rng (by omega)
      refine ⟨shortQualByte i len :: q, rng', ?_, by simp [hlen], hf, hio⟩
      unfold genShortAux
      rw [hget, hmb]
      simp only [heq, Option.map_some']

theorem genLongAux_some (mask : List Bool) :
    ∀ (k i : Nat) (rng : Rand), i + k ≤ mask.length →
    ∃ q rng', genLongAux mask i k rng = some (q, rng') ∧ q.length = k ∧
      rng'.floats = rng.floats ∧ rng'.ints = rng.ints := by
  intro k
  induction k with
  | zero => exact fun i rng _ => ⟨[], rng, rfl, rfl, rfl, rfl⟩
  | succ k ih =>
    intro i rng hik
    have hi : i < mask.length := by omega
    have hget : mask.get? i = some (mask.get ⟨i, hi⟩) := List.get?_eq_get hi
    cases hmb : mask.get ⟨i, hi⟩ with
    | true =>
      have hintn : rng.intn 4 = some (rng.ints rng.ipos % 4, { rng with ipos := rng.ipos + 1 }) := by
        unfold Rand.intn
        rw [if_neg (by omega)]
      obtain ⟨q, rng', heq, hlen, hf, hio⟩ :=
        ih (i + 1) { rng with ipos := rng.ipos + 1 } (by omega)
      refine ⟨(33 + 7 + rng.ints rng.ipos % 4) :: q, rng', ?_, by simp [hlen], hf, hio⟩
      unfold genLongAux
      rw [hget, hmb]
      simp only [hintn, heq, Option.map_some']
    | false =>
      have hintn : rng.intn 10 =
          some (rng.ints rng.ipos % 10, { rng with ipos := rng.ipos + 1 }) := by
        unfold Rand.intn
        rw [if_neg (by omega)]
      set rng2 : Rand := { rng with ipos := rng.ipos + 1 } with hrng2
      by_cases hdip : Frac.blt (rng2.nextFloat.1) ⟨2, 100⟩ = true
      · have hintn6 : (rng2.nextFloat.2).intn 6 =
            some ((rng2.nextFloat.2).ints (rng2.nextFloat.2).ipos % 6,
              { rng2.nextFloat.2 with ipos := (rng2.nextFloat.2).ipos + 1 }) := by
          unfold Rand.intn
          rw [if_neg (by omega)]
        obtain ⟨q, rng', heq, hlen, hf, hio⟩ :=
          ih (i + 1) { rng2.nextFloat.2 with ipos := (rng2.nextFloat.2).ipos + 1 } (by omega)
        have hrun : ∃ hd, genLongAux mask i (k + 1) rng = some (hd :: q, rng') := by
          unfold genLongAux
          rw [hget, hmb]
          simp only [hintn, hdip, if_true, hintn6, heq, Option.map_some']
          exact ⟨_, rfl⟩
        obtain ⟨hd, hrun⟩ := hrun
        exact ⟨hd :: q, rng', hrun, by simp [hlen], hf, hio⟩
      · obtain ⟨q, rng', heq, hlen, hf, hio⟩ := ih (i + 1) rng2.nextFloat.2 (by omega)
        have hrun : ∃ hd, genLongAux mask i (k + 1) rng = some (hd :: q, rng') := by
          unfold genLongAux
          rw [hget, hmb]
          simp only [hintn, hdip, if_false, heq, Option.map_some']
          exact ⟨_, rfl⟩
        obtain ⟨hd, hrun⟩ := hrun
        exact ⟨hd :: q, rng', hrun, by simp [hlen], hf, hio⟩

/-- C3: the quality string always has the same length as the mutated
sequence. Both profiles return an output of the length of their input
sequence whenever the error mask is at least as long (the engine
guarantees equal lengths), and injectSequencingErrors itself always
returns a mutated sequence and an error mask of equal length. -/
theorem c3_quality_length :
    (∀ (seq : List Nat) (mask : List Bool) (rng : Rand), mask.length = seq.length →
      ∃ q rng', generateShortReadQual seq mask rng = some (q, rng') ∧
        q.length = seq.length) ∧
    (∀ (seq : List Nat) (mask : List Bool) (rng : Rand), mask.length = seq.length →
      ∃ q rng', generateLongReadQual seq mask rng = some (q, rng') ∧
        q.length = seq.length) ∧
    (∀ (cfg : InjCfg) (seq : List Nat) (rng : Rand) (rbFuel injFuel : Nat)
      (res : List Nat) (m : List Bool) (lg : List MutEvent) (rng' : Rand),
      injectSequencingErrors cfg seq rng rbFuel injFuel = some (res, m, lg, rng') →
      res.length = m.length) := by
  refine ⟨?_, ?_, ?_⟩
  · intro seq mask rng hlen
    obtain ⟨q, rng', heq, hl, _, _⟩ :=
      genShortAux_some seq.length mask seq.length 0 rng (by omega)
    exact ⟨q, rng', heq, hl⟩
  · intro seq mask rng hlen
    obtain ⟨q, rng', heq, hl, _, _⟩ :=
      genLongAux_some mask seq.length 0 rng (by omega)
    exact ⟨q, rng', heq, hl⟩
  · intro cfg seq rng rbFuel injFuel res m lg rng' h
    exact (inject_spec h).1

theorem c3_witness :
    (∃ q rng', generateShortReadQual [65] [false] rngW = some (q, rng') ∧
      q.length = ([65] : List Nat).length) ∧
    ([65] : List Nat).length = ([false] : List Bool).length :=
  ⟨c3_quality_length.1 [65] [false] rngW rfl,
   c3_quality_length.2.2 cfg0W [65] rngW 1 1 [65] [false] [] rngW rfl⟩

/-- C5: randBase never returns its excluded byte and always returns one
of the bases A, C, G, T; moreover each of the four bases is produced by
exactly one value of the underlying uniform draw modulo 4, and when the
excluded byte is itself one of the four bases exactly 3 of the 4
equiprobable draws are accepted, so the three other bases are emitted
with equal probability. -/
theorem c5_randBase_spec :
    (∀ (excl : Nat) (rng : Rand) (fuel b : Nat) (rng' : Rand),
      randBase excl rng fuel = some (b, rng') → b ≠ excl ∧ b ∈ basesACGT) ∧
    (∀ t ∈ basesACGT,
      (Finset.univ.filter fun d : Fin 4 => basesACGT.getD d.val 65 = t).card = 1) ∧
    (∀ excl ∈ basesACGT,
      (Finset.univ.filter fun d : Fin 4 => basesACGT.getD d.val 65 ≠ excl).card = 3) := by
  refine ⟨?_, by decide, by decide⟩
  intro excl rng fuel b rng'
  induction fuel generalizing rng with
  | zero => exact fun h => absurd h (by simp [randBase])
  | succ fuel ih =>
    intro h
    rw [randBase_succ_eq] at h
    split at h
    · next hcond =>
      injection h with h1
      injection h1 with h2 h3
      subst h2
      exact ⟨hcond, getD_basesACGT_mem _ (Nat.mod_lt _ (by omega))⟩
    · exact ih _ h

theorem c5_witness :
    (67 ≠ 65 ∧ 67 ∈ basesACGT) ∧
    (Finset.univ.filter fun d : Fin 4 => basesACGT.getD d.val 65 = 65).card = 1 :=
  ⟨c5_randBase_spec.1 65 rngCB 1 67 rngCB1 rfl, c5_randBase_spec.2.1 65 (by decide)⟩

/-- C9 counterexample: the quality profiles are not pure functions of
(mutatedBases, errorMask) alone. Two runs of generateShortReadQual on
the same one-base sequence with the same error mask, differing only in
the state of the pseudorandom stream, return different quality strings. -/
theorem c9_counterexample :
    (generateShortReadQual [65] [true] rngCA).map Prod.fst = some [43] ∧
    (generateShortReadQual [65] [true] rngCB).map Prod.fst = some [44] := by
  exact ⟨rfl, rfl⟩

theorem genShortAux_pure (len : Nat) (mask : List Bool)
    (hm : ∀ b ∈ mask, b = false) :
    ∀ (k i : Nat), i + k ≤ mask.length →
    ∃ q, ∀ rng, genShortAux len mask i k rng = some (q, rng) := by
  intro k
  induction k with
  | zero => exact fun i _ => ⟨[], fun rng => rfl⟩
  | succ k ih =>
    intro i hik
    have hi : i < mask.length := by omega
    have hget : mask.get? i = some (mask.get ⟨i, hi⟩) := List.get?_eq_get hi
    have hmb : mask.get ⟨i, hi⟩ = false := hm _ (mask.get_mem i hi)
    obtain ⟨q, hq⟩ := ih (i + 1) (by omega)
    refine ⟨shortQualByte i len :: q, fun rng => ?_⟩
    unfold genShortAux
    rw [hget, hmb]
    simp only [hq rng, Option.map_some']

/-- C9 (amended): each quality profile is a deterministic function of
its inputs and of the pseudorandom stream state, not of
(mutatedBases, errorMask) alone. Restricted to error-free masks, the
short-read profile is a pure function of its inputs: it consumes no
randomness, returns the stream unchanged, and its output does not
depend on the stream. -/
theorem c9_short_pure_on_clean (seq : List Nat) (mask : List Bool)
    (hm : ∀ b ∈ mask, b = false) (hlen : seq.length ≤ mask.length) :
    ∃ q, ∀ rng, generateShortReadQual seq mask rng = some (q, rng) :=
  genShortAux_pure seq.length mask hm seq.length 0 (by omega)

theorem c9_witness :
    ∃ q, generateShortReadQual [65] [false] rngCA = some (q, rngCA) ∧
      generateShortReadQual [65] [false] rngCB = some (q, rngCB) := by
  obtain ⟨q, hq⟩ := c9_short_pure_on_clean [65] [false] (by decide) (by decide)
  exact ⟨q, hq rngCA, hq rngCB⟩

/-- C4: evaluation of one loop iteration of injectSequencingErrors at a
concrete insertion event. With indel rate 1, a uniform draw of 0.7
selects the insertion branch at position 0 of the sequence AA; the
mutation log records the insertion, but the clustering flag is false
when the next position is processed, because the insertion branch falls
through to the normal-base write that clears it. The specification
states that the flag is set after any mutation. -/
theorem c4_insertion_clears_cluster_flag :
    Option.map (fun st => (st.log, st.lastError)) (injectStep cfgInsW [65, 65] 1 st0W) =
      some ([MutEvent.ins 0 [65]], false) := by decide

theorem injSubStage_zero {cfg : InjCfg} {seq : List Nat} {rbFuel : Nat}
    {st : InjSt} {b hl : Nat} {ls li : Frac} {rng : Rand}
    (hls : ls.num = 0) (hli : li.num = 0) :
    injSubStage cfg seq rbFuel st b hl ls li rng = some (injNormal st b hl rng) := by
  unfold injSubStage
  rw [blt_zero_of_num hls, if_neg Bool.false_ne_true]
  unfold injIndelStage
  rw [blt_zero_of_num hli, if_neg Bool.false_ne_true]

theorem injectStep_zero {cfg : InjCfg} {seq : List Nat} {rbFuel : Nat} {st : InjSt}
    (hs : cfg.subRate.num = 0) (hi0 : cfg.indelRate.num = 0)
    (ha : cfg.ambigRate.num = 0) :
    injectStep cfg seq rbFuel st =
      some { res := st.res ++ [seq.getD st.i 0], mask := st.mask ++ [false],
             log := st.log, i := st.i + 1, prev := seq.getD st.i 0,
             homoLen := if seq.getD st.i 0 = st.prev then st.homoLen + 1 else 1,
             lastError := false, rng := st.rng } := by
  unfold injectStep
  dsimp only
  rw [blt_zero_of_num ha, if_neg Bool.false_ne_true]
  rw [injSubStage_zero (by split_ifs <;> simp [Frac.mul, hs])
    (by split_ifs <;> simp [Frac.mul, hi0])]
  rfl

theorem injectLoop_zero {cfg : InjCfg} {seq : List Nat} {rbFuel : Nat}
    (hs : cfg.subRate.num = 0) (hi0 : cfg.indelRate.num = 0)
    (ha : cfg.ambigRate.num = 0) :
    ∀ (fuel : Nat) (st : InjSt), seq.length - st.i ≤ fuel →
    ∃ st', injectLoop cfg seq rbFuel fuel st = some st' ∧
      st'.res = st.res ++ seq.drop st.i ∧
      st'.mask = st.mask ++ List.replicate (seq.length - st.i) false ∧
      st'.log = st.log ∧ st'.rng = st.rng := by
  intro fuel
  induction fuel with
  | zero =>
    intro st hf
    have hge : ¬ st.i < seq.length := by omega
    unfold injectLoop
    rw [if_neg hge]
    have h0 : seq.length - st.i = 0 := by omega
    exact ⟨st, rfl,
      by rw [List.drop_eq_nil_of_le (show seq.length ≤ st.i by omega)]; simp,
      by simp [h0], rfl, rfl⟩
  | succ fuel ih =>
    intro st hf
    by_cases hlt : st.i < seq.length
    · unfold injectLoop
      rw [if_pos hlt]
      simp only [injectStep_zero hs hi0 ha]
      have hst1 : seq.length - (st.i + 1) ≤ fuel := by omega
      obtain ⟨st', h1, h2, h3, h4, h5⟩ := ih
        { res := st.res ++ [seq.getD st.i 0], mask := st.mask ++ [false],
          log := st.log, i := st.i + 1, prev := seq.getD st.i 0,
          homoLen := if seq.getD st.i 0 = st.prev then st.homoLen + 1 else 1,
          lastError := false, rng := st.rng } hst1
      refine ⟨st', h1, ?_, ?_, h4, h5⟩
      · rw [h2]
        simp only [List.append_assoc, List.singleton_append]
        rw [List.getD_eq_getElem seq 0 hlt, ← List.drop_eq_getElem_cons hlt]
      · rw [h3]
        simp only [List.append_assoc, List.singleton_append]
        have hrep : seq.length - st.i = (seq.length - (st.i + 1)) + 1 := by omega
        rw [hrep, List.replicate_succ]
    · unfold injectLoop
      rw [if_neg hlt]
      have h0 : seq.length - st.i = 0 := by omega
      exact ⟨st, rfl,
      by rw [List.drop_eq_nil_of_le (show seq.length ≤ st.i by omega)]; simp,
      by simp [h0], rfl, rfl⟩

theorem injectLoop_zero_none {cfg : InjCfg} {seq : List Nat} {rbFuel : Nat}
    (hs : cfg.subRate.num = 0) (hi0 : cfg.indelRate.num = 0)
    (ha : cfg.ambigRate.num = 0) :
    ∀ (fuel : Nat) (st : InjSt), fuel < seq.length - st.i →
    injectLoop cfg seq rbFuel fuel st = none := by
  intro fuel
  induction fuel with
  | zero =>
    intro st hf
    unfold injectLoop
    rw [if_pos (by omega)]
  | succ fuel ih =>
    intro st hf
    unfold injectLoop
    rw [if_pos (by omega)]
    simp only [injectStep_zero hs hi0 ha]
    have hst1 : fuel < seq.length - (st.i + 1) := by omega
    exact ih _ hst1

theorem inject_zero {cfg : InjCfg} {seq : List Nat} {rng : Rand}
    {rbFuel injFuel : Nat}
    (hs : cfg.subRate.num = 0) (hi0 : cfg.indelRate.num = 0)
    (ha : cfg.ambigRate.num = 0) (hfuel : seq.length ≤ injFuel) :
    injectSequencingErrors cfg seq rng rbFuel injFuel =
      some (seq, List.replicate seq.length false, [], rng) := by
  unfold injectSequencingErrors
  have h0 : seq.length - (0 : Nat) ≤ injFuel := by omega
  obtain ⟨st', h1, h2, h3, h4, h5⟩ := injectLoop_zero hs hi0 ha injFuel
    { res := [], mask := [], log := [], i := 0, prev := 0, homoLen := 1,
      lastError := false, rng := rng } h0
  rw [h1, Option.map_some']
  rw [h2, h3, h4, h5]
  simp

theorem inject_zero_inv {cfg : InjCfg} {seq : List Nat} {rng : Rand}
    {rbFuel injFuel : Nat} {res : List Nat} {m : List Bool} {lg : List MutEvent}
    {rng' : Rand}
    (hs : cfg.subRate.num = 0) (hi0 : cfg.indelRate.num = 0)
    (ha : cfg.ambigRate.num = 0)
    (h : injectSequencingErrors cfg seq rng rbFuel injFuel = some (res, m, lg, rng')) :
    res = seq ∧ m = List.replicate seq.length false ∧ lg = [] ∧ rng' = rng := by
  rcases le_or_lt seq.length injFuel with hle | hgt
  · rw [inject_zero hs hi0 ha hle] at h
    injection h with h1
    have h2 := congrArg Prod.fst h1
    have h3 := congrArg (fun p => p.2.1) h1
    have h4 := congrArg (fun p => p.2.2.1) h1
    have h5 := congrArg (fun p => p.2.2.2) h1
    simp at h2 h3 h4 h5
    exact ⟨h2.symm, h3.symm, h4, h5.symm⟩
  · exfalso
    unfold injectSequencingErrors at h
    have hn : injFuel < seq.length - (0 : Nat) := by omega
    rw [injectLoop_zero_none hs hi0 ha injFuel
      { res := [], mask := [], log := [], i := 0, prev := 0, homoLen := 1,
        lastError := false, rng := rng } hn] at h
    exact Option.noConfusion h

theorem simLoop_zero_reads {bm : Frac → Frac → Frac}
    {ext : Int → Int → Except (List Nat) (List Nat)} {p : SimParams}
    {cfg : InjCfg} {rec : IndexRecord} {rlFuel rbFuel injFuel : Nat}
    (hs : cfg.subRate.num = 0) (hi0 : cfg.indelRate.num = 0)
    (ha : cfg.ambigRate.num = 0) :
    ∀ (fuel : Nat) (rng : Rand) (bases : Int) (out : SimOut),
    simLoop bm ext p cfg rec rlFuel rbFuel injFuel rng bases fuel = some out →
    ∀ rd ∈ out.reads, ∃ bs be raw, ext bs be = Except.ok raw ∧
      (rd.seq = raw ∨ rd.seq = reverseComplementBytes raw) := by
  intro fuel
  induction fuel with
  | zero => exact fun rng bases out h => absurd h (by simp [simLoop])
  | succ fuel ih =>
    intro rng bases out h
    unfold simLoop at h
    dsimp only at h
    split at h
    · split at h
      · exact Option.noConfusion h
      · next readLen rng1 hRL =>
        split at h
        · exact ih rng1 bases out h
        · split at h
          · exact Option.noConfusion h
          · next off rng2 hIN =>
            split at h
            · next e hEXT =>
              injection h with h1
              subst h1
              intro rd hrd
              simp [SimOut.reads] at hrd
            · next raw hEXT =>
              split at h
              · exact Option.noConfusion h
              · next mutB mask lg rng4 hINJ =>
                split at h
                · next e hQD =>
                  injection h with h1
                  subst h1
                  intro rd hrd
                  simp [SimOut.reads] at hrd
                · exact Option.noConfusion h
                · next qual rng5 hQD =>
                  split at h
                  · exact Option.noConfusion h
                  · next reads bfin rfin hREC =>
                    injection h with h1
                    subst h1
                    intro rd hrd
                    simp only [SimOut.reads] at hrd
                    rcases List.mem_cons.mp hrd with hhd | htl
                    · subst hhd
                      obtain ⟨hm, _, _, _⟩ := inject_zero_inv hs hi0 ha hINJ
                      refine ⟨_, _, raw, hEXT, ?_⟩
                      by_cases hflip : Frac.blt ((rng2.nextFloat).1) ⟨1, 2⟩ = true
                      · right
                        show mutB = reverseComplementBytes raw
                        rw [hm, if_pos hflip]
                      · left
                        show mutB = raw
                        rw [hm, if_neg hflip]
                    · exact ih rng5 (bases + readLen) (SimOut.ok reads bfin rfin) hREC rd htl
                  · next reads e rfin hREC =>
                    injection h with h1
                    subst h1
                    intro rd hrd
                    simp only [SimOut.reads] at hrd
                    rcases List.mem_cons.mp hrd with hhd | htl
                    · subst hhd
                      obtain ⟨hm, _, _, _⟩ := inject_zero_inv hs hi0 ha hINJ
                      refine ⟨_, _, raw, hEXT, ?_⟩
                      by_cases hflip : Frac.blt ((rng2.nextFloat).1) ⟨1, 2⟩ = true
                      · right
                        show mutB = reverseComplementBytes raw
                        rw [hm, if_pos hflip]
                      · left
                        show mutB = raw
                        rw [hm, if_neg hflip]
                    · exact ih rng5 (bases + readLen) (SimOut.err reads e rfin) hREC rd htl
    · injection h with h1
      subst h1
      intro rd hrd
      simp [SimOut.reads] at hrd

/-- C1: when the substitution, indel and ambiguous rates are all zero,
injectSequencingErrors is the identity: the emitted sequence equals its
input exactly, every entry of the error mask is false, the mutation log
is empty and the random stream is untouched. Consequently every read
emitted by the sampling loop equals the extracted reference substring or
its reverse complement when the strand flip occurred. A zero float64
rate is embedded as a fraction with numerator zero. -/
theorem c1_zero_rates_identity :
    (∀ (cfg : InjCfg) (seq : List Nat) (rng : Rand) (rbFuel injFuel : Nat),
      cfg.subRate.num = 0 → cfg.indelRate.num = 0 → cfg.ambigRate.num = 0 →
      seq.length ≤ injFuel →
      injectSequencingErrors cfg seq rng rbFuel injFuel =
        some (seq, List.replicate seq.length false, [], rng)) ∧
    (∀ (bm : Frac → Frac → Frac) (ext : Int → Int → Except (List Nat) (List Nat))
      (p : SimParams) (cfg : InjCfg) (rec : IndexRecord)
      (rlFuel rbFuel injFuel fuel : Nat) (rng : Rand) (bases : Int) (out : SimOut),
      cfg.subRate.num = 0 → cfg.indelRate.num = 0 → cfg.ambigRate.num = 0 →
      simLoop bm ext p cfg rec rlFuel rbFuel injFuel rng bases fuel = some out →
      ∀ rd ∈ out.reads, ∃ bs be raw, ext bs be = Except.ok raw ∧
        (rd.seq = raw ∨ rd.seq = reverseComplementBytes raw)) :=
  ⟨fun _ _ _ _ _ hs hi0 ha hf => inject_zero hs hi0 ha hf,
   fun _ _ _ _ _ _ _ _ fuel rng bases out hs hi0 ha h =>
     simLoop_zero_reads hs hi0 ha fuel rng bases out h⟩

theorem c1_witness :
    (injectSequencingErrors cfg0W [65, 67] rngW 1 2 =
      some ([65, 67], List.replicate 2 false, [], rngW)) ∧
    (∃ bs be raw, extOKW bs be = Except.ok raw ∧
      (readW.seq = raw ∨ readW.seq = reverseComplementBytes raw)) := by
  constructor
  · exact c1_zero_rates_identity.1 cfg0W [65, 67] rngW 1 2 rfl rfl rfl (by decide)
  · have hrun : simLoop bmW extOKW pC2W cfg0W recW 1 2 2 rngW 0 5 =
        some (SimOut.ok [readW, readW] 4 rngW22) := rfl
    have hmem : readW ∈ (SimOut.ok [readW, readW] 4 rngW22).reads :=
      List.mem_cons_self _ _
    exact c1_zero_rates_identity.2 bmW extOKW pC2W cfg0W recW 1 2 2 5 rngW 0
      (SimOut.ok [readW, readW] 4 rngW22) rfl rfl rfl hrun readW hmem

theorem natCeilDiv_zero (r : Nat) : natCeilDiv r 0 = 0 := by
  unfold natCeilDiv
  rcases Nat.eq_zero_or_pos r with h | h
  · subst h; rfl
  · exact Nat.div_eq_of_lt (by omega)

theorem natCeilDiv_pos {r x : Nat} (hr : 1 ≤ r) (hx : 1 ≤ x) :
    natCeilDiv r x = natCeilDiv r (x - r) + 1 := by
  unfold natCeilDiv
  rcases le_or_lt r x with hle | hlt
  · have h1 : x + r - 1 = (x - 1) + r := by omega
    have h2 : x - r + r - 1 = x - 1 := by omega
    rw [h1, h2, Nat.add_div_right _ (by omega)]
  · have h0 : x - r = 0 := by omega
    rw [h0]
    have h1 : (x + r - 1) / r = 1 := by
      apply Nat.div_eq_of_lt_le
      · omega
      · omega
    have h2 : (0 + r - 1) / r = 0 := Nat.div_eq_of_lt (by omega)
    rw [h1, h2]

theorem natCeilDiv_mul_ge {r x : Nat} (hr : 1 ≤ r) : x ≤ r * natCeilDiv r x := by
  unfold natCeilDiv
  have hdm := Nat.div_add_mod (x + r - 1) r
  have hml : (x + r - 1) % r < r := Nat.mod_lt _ (by omega)
  omega

theorem qualityDispatch_short {profile mutB : List Nat} {mask : List Bool} {rng : Rand}
    (hp : toLowerBytes profile = shortProfile) :
    qualityDispatch profile mutB mask rng = .ok (generateShortReadQual mutB mask rng) := by
  unfold qualityDispatch
  rw [if_pos hp]

theorem qualityDispatch_long {profile mutB : List Nat} {mask : List Bool} {rng : Rand}
    (hp : toLowerBytes profile = longProfile) :
    qualityDispatch profile mutB mask rng = .ok (generateLongReadQual mutB mask rng) := by
  unfold qualityDispatch
  rw [hp]
  rw [if_neg (by decide), if_pos rfl]

theorem qualityDispatch_some (profile : List Nat) (mutB : List Nat)
    (mask : List Bool) (rng : Rand)
    (hprof : toLowerBytes profile = shortProfile ∨ toLowerBytes profile = longProfile)
    (hlen : mutB.length ≤ mask.length) :
    ∃ qual rng', qualityDispatch profile mutB mask rng = .ok (some (qual, rng')) ∧
      rng'.floats = rng.floats ∧ rng'.ints = rng.ints := by
  rcases hprof with hp | hp
  · obtain ⟨q, r', hg, _, hf, hi⟩ :=
      genShortAux_some mutB.length mask mutB.length 0 rng (by omega)
    refine ⟨q, r', ?_, hf, hi⟩
    rw [qualityDispatch_short hp]
    unfold generateShortReadQual
    rw [hg]
  · obtain ⟨q, r', hg, _, hf, hi⟩ :=
      genLongAux_some mask mutB.length 0 rng (by omega)
    refine ⟨q, r', ?_, hf, hi⟩
    rw [qualityDispatch_long hp]
    unfold generateLongReadQual
    rw [hg]

theorem inject_ne_none {cfg : InjCfg} {seq : List Nat} {rng : Rand}
    {rbFuel injFuel : Nat} {I : Nat → Nat} (hmil : 1 ≤ cfg.maxIndelLen)
    (hrb : ∀ (x : Nat) (r' : Rand), r'.ints = I → (randBase x r' rbFuel).isSome)
    (hrng : rng.ints = I) (hfuel : seq.length ≤ injFuel) :
    injectSequencingErrors cfg seq rng rbFuel injFuel ≠ none := by
  intro h
  have hs := inject_isSome hmil hrb hrng hfuel
  rw [h] at hs
  simp at hs

theorem c2_loop {bm : Frac → Frac → Frac}
    {ext : Int → Int → Except (List Nat) (List Nat)} {extF : Int → Int → List Nat}
    {p : SimParams} {cfg : InjCfg} {rec : IndexRecord}
    {rlFuel rbFuel injFuel : Nat} {L r d : Nat} {I : Nat → Nat}
    (hsd : p.readLenStdDev = 0) (hmean : p.readLenMean = (r : Int))
    (hr : 1 ≤ r) (hrL : r ≤ L)
    (hL : p.stop - p.start = (L : Int)) (hd : p.coverageDepth = (d : Int))
    (hmil : 1 ≤ cfg.maxIndelLen)
    (hext : ∀ s e : Int, ext s e = Except.ok (extF s e))
    (hlenext : ∀ s e : Int, (extF s e).length ≤ injFuel)
    (hprof : toLowerBytes p.qualityProfile = shortProfile ∨
             toLowerBytes p.qualityProfile = longProfile)
    (hrb : ∀ (x : Nat) (r' : Rand), r'.ints = I → (randBase x r' rbFuel).isSome) :
    ∀ (fuel b : Nat) (rng : Rand), rng.ints = I →
      natCeilDiv r (L * d - b) < fuel →
      ∃ reads rng',
        simLoop bm ext p cfg rec rlFuel rbFuel injFuel rng (b : Int) fuel =
          some (.ok reads ((b + r * reads.length : Nat) : Int) rng') ∧
        reads.length = natCeilDiv r (L * d - b) ∧ rng'.ints = I := by
  have htarget : targetBases p = ((L * d : Nat) : Int) := by
    unfold targetBases regionLenP
    rw [hL, hd]
    push_cast
    ring
  have hreg : regionLenP p = (L : Int) := hL
  intro fuel
  induction fuel with
  | zero => exact fun b rng _ hf => absurd hf (Nat.not_lt_zero _)
  | succ fuel ih =>
    intro b rng hrng hf
    by_cases hbt : b < L * d
    · have hcond : (b : Int) < targetBases p := by
        rw [htarget]
        exact_mod_cast hbt
      have hRL : randReadLen bm p.readLenMean p.readLenStdDev p.readLenMin
          p.readLenMax rng rlFuel = some ((r : Int), rng) := by
        unfold randReadLen
        rw [hsd, if_pos rfl, hmean]
      have hskip : ¬ (regionLenP p < (r : Int)) := by
        rw [hreg]
        exact_mod_cast Nat.not_lt.mpr hrL
      have hn0 : ((regionLenP p - (r : Int) + 1).toNat ≠ 0) := by
        rw [hreg]
        omega
      have hIN : rng.intn (regionLenP p - (r : Int) + 1).toNat =
          some (rng.ints rng.ipos % (regionLenP p - (r : Int) + 1).toNat,
            { rng with ipos := rng.ipos + 1 }) := by
        unfold Rand.intn
        rw [if_neg hn0]
      unfold simLoop
      rw [if_pos hcond]
      simp only [hRL]
      rw [if_neg hskip]
      simp only [hIN]
      simp only [hext]
      split
      · next heq =>
        refine absurd heq (inject_ne_none hmil hrb ?_ ?_)
        · exact hrng
        · split_ifs with hc
          · rw [reverseComplementBytes_length]
            exact hlenext _ _
          · exact hlenext _ _
      · next mutB mask lg rng4 heq =>
        have hml : mutB.length = mask.length := (inject_spec heq).1
        have hr4 : rng4.ints = I := ((inject_spec heq).2.2).trans hrng
        obtain ⟨qual, rng5, hqd, hqf, hqi⟩ :=
          qualityDispatch_some p.qualityProfile mutB mask rng4 hprof (by omega)
        simp only [hqd]
        have hr5 : rng5.ints = I := hqi.trans hr4
        have hstep := natCeilDiv_pos hr (show 1 ≤ L * d - b by omega)
        have hsub : L * d - b - r = L * d - (b + r) := by omega
        rw [hsub] at hstep
        have hfuel2 : natCeilDiv r (L * d - (b + r)) < fuel := by omega
        obtain ⟨reads, rng', hsim, hcount, hints⟩ := ih (b + r) rng5 hr5 hfuel2
        have hcast : ((b + r : Nat) : Int) = (b : Int) + (r : Int) := by
          push_cast
          ring
        rw [hcast] at hsim
        have hbase : (b + r) + r * reads.length = b + r * (reads.length + 1) := by
          rw [Nat.mul_succ]
          omega
        rw [hbase] at hsim
        simp only [hsim]
        refine ⟨_ :: reads, rng', rfl, ?_, hints⟩
        simp only [List.length_cons, hcount, hstep]
    · have hcond : ¬ ((b : Int) < targetBases p) := by
        rw [htarget]
        exact_mod_cast Nat.not_lt.mpr (by omega)
      refine ⟨[], rng, ?_, ?_, hrng⟩
      · unfold simLoop
        rw [if_neg hcond]
        simp
      · rw [show L * d - b = 0 by omega, natCeilDiv_zero]
        rfl

/-- C2: with a fixed-length configuration (zero standard deviation and
mean r) the sampling loop of simulateRegion terminates within
ceil(d L / r) + 1 iterations on a region of length L at depth d, with
L at least r at least 1 and d at least 1: the run completes normally
with exactly ceil(d L / r) emitted reads; each iteration adds the
original drawn length r, not the mutated length, so the final
basesSimulated counter equals r times the number of reads, which is at
least d times L at loop exit. The hypotheses require an extraction
oracle that always succeeds within the inject fuel, a valid quality
profile, a positive maxIndelLen, and an integer-draw stream on which
the substitution rejection loop always lands within its fuel. -/
theorem c2_coverage_loop_count {bm : Frac → Frac → Frac}
    {ext : Int → Int → Except (List Nat) (List Nat)} {extF : Int → Int → List Nat}
    {p : SimParams} {cfg : InjCfg} {rec : IndexRecord}
    {rlFuel rbFuel injFuel : Nat} {L r d : Nat} {rng : Rand} {fuel : Nat}
    (hsd : p.readLenStdDev = 0) (hmean : p.readLenMean = (r : Int))
    (hr : 1 ≤ r) (hrL : r ≤ L)
    (hL : p.stop - p.start = (L : Int)) (hd : p.coverageDepth = (d : Int))
    (hmil : 1 ≤ cfg.maxIndelLen)
    (hext : ∀ s e : Int, ext s e = Except.ok (extF s e))
    (hlenext : ∀ s e : Int, (extF s e).length ≤ injFuel)
    (hprof : toLowerBytes p.qualityProfile = shortProfile ∨
             toLowerBytes p.qualityProfile = longProfile)
    (hrb : ∀ (x : Nat) (r' : Rand), r'.ints = rng.ints → (randBase x r' rbFuel).isSome)
    (hfuel : natCeilDiv r (L * d) < fuel) :
    ∃ reads rng',
      simLoop bm ext p cfg rec rlFuel rbFuel injFuel rng 0 fuel =
        some (.ok reads ((r * reads.length : Nat) : Int) rng') ∧
      reads.length = natCeilDiv r (L * d) ∧
      ((L * d : Nat) : Int) ≤ ((r * reads.length : Nat) : Int) := by
  obtain ⟨reads, rng', hsim, hcount, _⟩ :=
    c2_loop hsd hmean hr hrL hL hd hmil hext hlenext hprof hrb fuel 0 rng rfl
      (by simpa using hfuel)
  refine ⟨reads, rng', ?_, ?_, ?_⟩
  · simpa using hsim
  · simpa using hcount
  · have hc : reads.length = natCeilDiv r (L * d) := by simpa using hcount
    have h1 : L * d ≤ r * reads.length := by
      have h2 : L * d ≤ r * natCeilDiv r (L * d) := natCeilDiv_mul_ge hr
      rw [hc]
      exact h2
    exact_mod_cast h1

theorem c2_witness :
    ∃ reads rng',
      simLoop bmW extOKW pC2W cfg0W recW 1 2 2 rngW 0 3 =
        some (.ok reads ((2 * reads.length : Nat) : Int) rng') ∧
      reads.length = natCeilDiv 2 (4 * 1) ∧
      ((4 * 1 : Nat) : Int) ≤ ((2 * reads.length : Nat) : Int) :=
  c2_coverage_loop_count rfl (by decide) (by decide) (by decide) (by decide)
    (by decide) (by decide)
    (fun _ _ => rfl : ∀ s e : Int, extOKW s e = Except.ok (extFW s e))
    (fun _ _ => by decide) (Or.inl (by decide))
    (fun x r' hi => randBase_isSome_two r' x (by rw [hi]; simp only [rngW]; omega))
    (by decide)

/-- C6 counterexample: a seek or read failure during extraction of one
sampled read does not abandon only that read attempt. At a concrete
region of length 4 at depth 1 with an always-failing extraction oracle,
the sampling loop returns the extraction error immediately, having
emitted no reads, with the coverage target still unmet, instead of
continuing to draw further reads for the region. -/
theorem c6_counterexample :
    simLoop bmW extBadW pC2W cfg0W recW 1 2 2 rngW 0 1 =
      some (.err [] (.extractFail 0 2) rngW1) ∧
    (0 : Int) < targetBases pC2W :=
  ⟨rfl, by decide⟩

/-- C6 (amended): a seek or read failure while extracting one sampled
read aborts the whole region: the sampling loop returns an extraction
error carrying the read coordinates, with no further reads drawn for
that region; the region-list driver of SeqSimRun records the failed
region and continues with the remaining regions unaffected. -/
theorem c6_extract_failure_semantics :
    (∀ (bm : Frac → Frac → Frac) (ext : Int → Int → Except (List Nat) (List Nat))
      (errF : Int → Int → List Nat) (p : SimParams) (cfg : InjCfg)
      (rec : IndexRecord) (rlFuel rbFuel injFuel : Nat) (L r d : Nat)
      (rng : Rand) (fuel : Nat),
      p.readLenStdDev = 0 → p.readLenMean = (r : Int) → 1 ≤ r → r ≤ L →
      p.stop - p.start = (L : Int) → p.coverageDepth = (d : Int) → 1 ≤ L * d →
      (∀ s e : Int, ext s e = Except.error (errF s e)) →
      ∃ bs be rng2,
        simLoop bm ext p cfg rec rlFuel rbFuel injFuel rng 0 (fuel + 1) =
          some (.err [] (.extractFail bs be) rng2)) ∧
    (∀ (bm : Frac → Frac → Frac) (ext : Int → Int → Except (List Nat) (List Nat))
      (index : List Nat → Option IndexRecord) (cfg : InjCfg)
      (rlFuel rbFuel injFuel fuel : Nat) (rng : Rand) (h1 : List Nat)
      (p1 : SimParams) (rest : List (List Nat × SimParams)),
      isErrOut (simulateRegionM bm ext index h1 p1 cfg rlFuel rbFuel injFuel fuel rng) =
        true →
      runRegions bm ext index cfg rlFuel rbFuel injFuel fuel rng ((h1, p1) :: rest) =
        simulateRegionM bm ext index h1 p1 cfg rlFuel rbFuel injFuel fuel rng ::
          runRegions bm ext index cfg rlFuel rbFuel injFuel fuel
            (rngAfter (simulateRegionM bm ext index h1 p1 cfg rlFuel rbFuel injFuel fuel rng)
              rng) rest) := by
  constructor
  · intro bm ext errF p cfg rec rlFuel rbFuel injFuel L r d rng fuel
      hsd hmean hr hrL hL hd htgt hfail
    have htarget : targetBases p = ((L * d : Nat) : Int) := by
      unfold targetBases regionLenP
      rw [hL, hd]
      push_cast
      ring
    have hreg : regionLenP p = (L : Int) := hL
    have hcond : (0 : Int) < targetBases p := by
      rw [htarget]
      exact_mod_cast htgt
    have hRL : randReadLen bm p.readLenMean p.readLenStdDev p.readLenMin
        p.readLenMax rng rlFuel = some ((r : Int), rng) := by
      unfold randReadLen
      rw [hsd, if_pos rfl, hmean]
    have hskip : ¬ (regionLenP p < (r : Int)) := by
      rw [hreg]
      exact_mod_cast Nat.not_lt.mpr hrL
    have hn0 : ((regionLenP p - (r : Int) + 1).toNat ≠ 0) := by
      rw [hreg]
      omega
    have hIN : rng.intn (regionLenP p - (r : Int) + 1).toNat =
        some (rng.ints rng.ipos % (regionLenP p - (r : Int) + 1).toNat,
          { rng with ipos := rng.ipos + 1 }) := by
      unfold Rand.intn
      rw [if_neg hn0]
    unfold simLoop
    rw [if_pos hcond]
    simp only [hRL]
    rw [if_neg hskip]
    simp only [hIN]
    simp only [hfail]
    exact ⟨_, _, _, rfl⟩
  · intro bm ext index cfg rlFuel rbFuel injFuel fuel rng h1 p1 rest _
    rfl

theorem c6_witness :
    (∃ bs be rng2,
      simLoop bmW extBadW pC2W cfg0W recW 1 2 2 rngW 0 (0 + 1) =
        some (.err [] (.extractFail bs be) rng2)) ∧
    runRegions bmW extBadW indexW cfg0W 1 2 2 1 rngW
        (([120], pC2W) :: [([121], pC2W)]) =
      simulateRegionM bmW extBadW indexW [120] pC2W cfg0W 1 2 2 1 rngW ::
        runRegions bmW extBadW indexW cfg0W 1 2 2 1
          (rngAfter (simulateRegionM bmW extBadW indexW [120] pC2W cfg0W 1 2 2 1 rngW)
            rngW) [([121], pC2W)] :=
  ⟨c6_extract_failure_semantics.1 bmW extBadW errFW pC2W cfg0W recW 1 2 2 4 2 1 rngW 0
      rfl (by decide) (by decide) (by decide) (by decide) (by decide) (by decide)
      (fun _ _ => rfl),
   c6_extract_failure_semantics.2 bmW extBadW indexW cfg0W 1 2 2 1 rngW [120] pC2W
      [([121], pC2W)] rfl⟩

end SeqSim
